import Mathlib

/-!
The host-bridged stream adapter `redjs::Transport`.

A shallow embedding of `src/redjs/transport.cpp`: the queue of inbound chunks
with its cursor, the outbound accumulator, and the operations on them. The
hexadecimal decoder of `src/utils/hex_utils.cpp` comes first.

* `size_t` values are natural numbers. The only subtraction that can wrap,
  `s.size() - current_pos`, is guarded: when the cursor lies past the end of
  the front chunk the C++ code reads outside the chunk, and the model leaves
  the loop with `LoopExit.undefined` instead of inventing a value.
* The caller's buffer of `do_partial_read` is modelled by the list of bytes
  written to it, in the order in which `memcpy` writes them.
* The `while` loop is modelled with fuel; `do_partial_read_loop_fuel_irrelevant`
  shows that the fuel chosen by `do_partial_read` is always enough.
-/

/-! Section: `utils/hex_utils.cpp`, hexadecimal string to buffer

Characters and bytes are their numeric values. The function reads its input
through the pointer `p`; the model records the index of every read and ends
with `HexExit.undefined` at the first read past the end of the input. -/

/-- Modelled from the spec: `detail::hexadecimal_char_to_int` is declared in the missing
header `utils/sugar/chars_to_int.hpp`; it maps each hexadecimal digit to its
value 0..15 and every other character to 0xff. -/
def hexadecimal_char_to_int (c : Nat) : Nat :=
  if 48 ≤ c ∧ c ≤ 57 then c - 48
  else if 97 ≤ c ∧ c ≤ 102 then c - 87
  else if 65 ≤ c ∧ c ≤ 70 then c - 55
  else 0xff

/-- The character is one of `0`..`9`, `a`..`f`, `A`..`F`. -/
def is_hexadecimal_digit (c : Nat) : Prop :=
  (48 ≤ c ∧ c ≤ 57) ∨ (97 ≤ c ∧ c ≤ 102) ∨ (65 ≤ c ∧ c ≤ 70)

instance (c : Nat) : Decidable (is_hexadecimal_digit c) := by
  unfold is_hexadecimal_digit; infer_instance

/-- How a call of `hexadecimal_string_to_buffer` ends. -/
inductive HexExit where
  /-- Normal return of `ret`, with the bytes written to `out` and the indices
  of the input that were read, both in order. -/
  | returned (ret : Bool) (out : List Nat) (reads : List Nat)
  /-- The last index of `reads` lies past the end of the input. -/
  | undefined (reads : List Nat)
  deriving DecidableEq, Repr

/-- The loop `for (uint8_t& outc : out)` of `hexadecimal_string_to_buffer`
(hex_utils.cpp lines 46-51) and the `return` after it: the first argument
counts the elements of `out` still to be visited, `p` is the read position.
`char_to_int` stands for `detail::hexadecimal_char_to_int`. -/
def hexadecimal_string_to_buffer_loop (char_to_int : Nat → Nat) (input : List Nat) :
    Nat → Nat → Nat → List Nat → List Nat → HexExit
  | 0, _, err, out, reads => .returned (err != 0xff) out reads
  | n + 1, p, err, out, reads =>
    match input[p]? with
    | none => .undefined (reads ++ [p])
    | some a =>
      match input[p + 1]? with
      | none => .undefined (reads ++ [p, p + 1])
      | some b =>
        let c1 := char_to_int a % 256
        let c2 := char_to_int b % 256
        let err1 := (err ||| (c1 ||| c2)) % 2 ^ 32
        let outc := ((c1 <<< 4) ||| c2) % 256
        hexadecimal_string_to_buffer_loop char_to_int input n (p + 2) err1
          (out ++ [outc]) (reads ++ [p, p + 1])

/-- `hexadecimal_string_to_buffer(chars_view in, writable_bytes_view out)`
(hex_utils.cpp lines 39-53); `out_size` is `out.size()`. -/
def hexadecimal_string_to_buffer (char_to_int : Nat → Nat) (input : List Nat)
    (out_size : Nat) : HexExit :=
  hexadecimal_string_to_buffer_loop char_to_int input out_size 0 0 [] []

/-- The two assertions at the head of `hexadecimal_string_to_buffer`
(hex_utils.cpp lines 41-42). -/
def hexadecimal_string_to_buffer_asserts (input : List Nat) (out_size : Nat) : Prop :=
  input.length / 2 ≤ out_size ∧ input.length % 2 = 0

instance (input : List Nat) (out_size : Nat) :
    Decidable (hexadecimal_string_to_buffer_asserts input out_size) := by
  unfold hexadecimal_string_to_buffer_asserts; infer_instance

/-- `hexadecimal_string_to_buffer(chars_view in, uint8_t* out)`
(hex_utils.cpp lines 55-58). -/
def hexadecimal_string_to_buffer_ptr (char_to_int : Nat → Nat) (input : List Nat) : HexExit :=
  hexadecimal_string_to_buffer char_to_int input (input.length / 2)

namespace redjs

/-- The value of one byte (`uint8_t`, or one `char` of a `std::string`). -/
abbrev Byte := Nat

/-- One pushed buffer (`std::string`). -/
abbrev Chunk := List Byte

/-- The bytes of a string literal, as the character codes. -/
def bytes (s : String) : List Byte := s.toList.map Char.toNat

/-- The data members of `redjs::Transport` that `transport.cpp` uses:
`input_buffers`, `current_pos` and `output_buffer`. -/
structure Transport where
  input_buffers : List Chunk
  current_pos : Nat
  output_buffer : List Byte
  deriving DecidableEq, Repr

/-- Modelled from the spec: the class declaration (`redjs/transport.hpp`) is missing,
so the freshly constructed adapter is taken from the data model: an empty
queue, cursor 0 and an empty accumulator. -/
def Transport.fresh : Transport := ⟨[], 0, []⟩

/-- The error identifiers thrown by this file. -/
inductive Error where
  | ERR_TRANSPORT_NO_MORE_DATA
  deriving DecidableEq, Repr

/-- How the copy loop of `do_partial_read` is left. -/
inductive LoopExit where
  /-- The loop ended (`remaining == 0` or `break`). -/
  | done (t : Transport) (remaining : Nat) (data : List Byte)
  /-- The loop body ran on an empty queue or with the cursor past the end of
  the front chunk: `front()` or `memcpy` leave the allocated memory. -/
  | undefined
  /-- The model ran out of fuel. -/
  | out_of_fuel
  deriving DecidableEq, Repr

/-- The `while (remaining)` loop of `Transport::do_partial_read`
(transport.cpp lines 49-65). `data` holds the bytes written to the caller's
buffer so far. -/
def do_partial_read_loop : Nat → Transport → Nat → List Byte → LoopExit
  | 0, _, _, _ => .out_of_fuel
  | fuel + 1, t, remaining, data =>
    if remaining = 0 then .done t remaining data
    else
      match t.input_buffers with
      | [] => .undefined
      | s :: rest =>
        if s.length < t.current_pos then .undefined
        else
          let s_len := s.length - t.current_pos
          let min_len := min s_len remaining
          let data1 := data ++ (s.drop t.current_pos).take min_len
          let current_pos := t.current_pos + min_len
          let remaining1 := remaining - min_len
          if min_len = s_len then
            if rest.isEmpty then
              .done { t with current_pos := 0, input_buffers := rest } remaining1 data1
            else
              do_partial_read_loop fuel { t with current_pos := 0, input_buffers := rest }
                remaining1 data1
          else
            do_partial_read_loop fuel { t with current_pos := current_pos } remaining1 data1

/-- How a call of `do_partial_read` ends. -/
inductive ReadStatus where
  /-- Normal return of `data_len`. -/
  | returned (data_len : Nat)
  /-- An exception `Error(e)` leaves the function. -/
  | thrown (e : Error)
  /-- The loop left the allocated memory. -/
  | undefined
  /-- The model ran out of fuel. -/
  | out_of_fuel
  deriving DecidableEq, Repr

/-- The outcome of one call of `do_partial_read`: the adapter afterwards, the
bytes written to the caller's buffer, and how the call ended. -/
structure ReadResult where
  t : Transport
  data : List Byte
  status : ReadStatus
  deriving DecidableEq, Repr

/-- `Transport::do_partial_read` with an explicit bound on the loop passes. -/
def do_partial_read_fuel (fuel : Nat) (t : Transport) (len : Nat) : ReadResult :=
  if t.input_buffers.isEmpty then
    ⟨t, [], .thrown .ERR_TRANSPORT_NO_MORE_DATA⟩
  else
    match do_partial_read_loop fuel t len [] with
    | .done t1 remaining data => ⟨t1, data, .returned (len - remaining)⟩
    | .undefined => ⟨t, [], .undefined⟩
    | .out_of_fuel => ⟨t, [], .out_of_fuel⟩

/-- `Transport::do_partial_read` (transport.cpp lines 40-73). Every pass of
the loop but the last removes a chunk, so one pass per queued chunk plus the
final test of `remaining` is enough. -/
def do_partial_read (t : Transport) (len : Nat) : ReadResult :=
  do_partial_read_fuel (t.input_buffers.length + 1) t len

/-- `Transport::do_send` (transport.cpp lines 75-82); `buffer` is the `len`
bytes `[buffer, buffer + len)`. -/
def do_send (t : Transport) (buffer : List Byte) : Transport :=
  { t with output_buffer := t.output_buffer ++ buffer }

/-- The constant `FD_TRANS` (transport.cpp line 28). -/
def FD_TRANS : Int := 42

/-- `Transport::get_fd` (transport.cpp lines 84-87). -/
def get_fd (_t : Transport) : Int := FD_TRANS

/-- `Transport::push_input_buffer` (transport.cpp lines 89-92). -/
def push_input_buffer (t : Transport) (data : Chunk) : Transport :=
  { t with input_buffers := t.input_buffers ++ [data] }

/-- `Transport::get_output_buffer` (transport.cpp lines 94-97). -/
def get_output_buffer (t : Transport) : List Byte := t.output_buffer

/-- `Transport::clear_output_buffer` (transport.cpp lines 99-102). -/
def clear_output_buffer (t : Transport) : Transport :=
  { t with output_buffer := [] }

/-! Section: Derived notions used by the specification -/

/-- The unread stream: the front chunk from the cursor onward, then the
remaining chunks in queue order. -/
def unread (t : Transport) : List Byte :=
  match t.input_buffers with
  | [] => []
  | s :: rest => s.drop t.current_pos ++ rest.flatten

/-- The available byte count `(len(front) - c) + sum(len(rest))`. -/
def available (t : Transport) : Nat :=
  match t.input_buffers with
  | [] => 0
  | s :: rest => (s.length - t.current_pos) + (rest.map List.length).sum

/-- The cursor lies inside or at the end of the front chunk, and is 0 when the
queue is empty. -/
def cursor_ok (t : Transport) : Prop :=
  match t.input_buffers with
  | [] => t.current_pos = 0
  | s :: _ => t.current_pos ≤ s.length

instance (t : Transport) : Decidable (cursor_ok t) := by
  unfold cursor_ok; split <;> infer_instance

/-- The Input Queue invariant of the data model: the cursor is strictly inside
the front chunk whenever the queue is non-empty, and no queued chunk is
empty. -/
def queue_inv (t : Transport) : Prop :=
  (∀ s ∈ t.input_buffers.head?, t.current_pos < s.length) ∧
  (∀ s ∈ t.input_buffers, s ≠ [])

instance (t : Transport) : Decidable (queue_inv t) := by
  unfold queue_inv; infer_instance

/-- The host-facing and engine-facing calls that change or read the buffers. -/
inductive Op where
  | push (data : Chunk)
  | read (len : Nat)
  | send (buffer : List Byte)
  | clear
  deriving DecidableEq, Repr

/-- One call; the second component is what a read wrote to its buffer. -/
def step (t : Transport) : Op → Transport × List Byte
  | .push data => (push_input_buffer t data, [])
  | .read len =>
    let r := do_partial_read t len
    (r.t, match r.status with
          | .returned _ => r.data
          | _ => [])
  | .send buffer => (do_send t buffer, [])
  | .clear => (clear_output_buffer t, [])

/-- A sequence of calls, with the bytes returned by its reads concatenated. -/
def run (t : Transport) : List Op → Transport × List Byte
  | [] => (t, [])
  | op :: ops =>
    let r := step t op
    let rs := run r.1 ops
    (rs.1, r.2 ++ rs.2)

/-- All chunks pushed by a sequence of calls, concatenated in push order. -/
def pushed : List Op → List Byte
  | [] => []
  | .push data :: ops => data ++ pushed ops
  | _ :: ops => pushed ops

/-- Every push of the sequence carries at least one byte. -/
def pushes_nonempty : List Op → Prop
  | [] => True
  | .push data :: ops => data ≠ [] ∧ pushes_nonempty ops
  | _ :: ops => pushes_nonempty ops

/-- The exit of a loop run whose buffer already held `d` before the run. -/
def LoopExit.prepend (d : List Byte) : LoopExit → LoopExit
  | .done t remaining data => .done t remaining (d ++ data)
  | .undefined => .undefined
  | .out_of_fuel => .out_of_fuel

/-- How one pass over the body of the copy loop ends. -/
inductive PassExit where
  /-- The body ran to its end; `while (remaining)` is tested next. -/
  | next (t : Transport) (remaining : Nat) (data : List Byte)
  /-- The body left the loop by `break`. -/
  | stop (t : Transport) (remaining : Nat) (data : List Byte)
  /-- The body ran on an empty queue or with the cursor past the end of the
  front chunk. -/
  | undefined
  deriving DecidableEq, Repr

/-- One pass over the body of the copy loop (transport.cpp lines 50-64), the
body of `do_partial_read_loop` on its own; `loop_unfold_pass` shows that the
loop is this pass repeated. -/
def loop_pass (t : Transport) (remaining : Nat) (data : List Byte) : PassExit :=
  match t.input_buffers with
  | [] => .undefined
  | s :: rest =>
    if s.length < t.current_pos then .undefined
    else
      let s_len := s.length - t.current_pos
      let min_len := min s_len remaining
      let data1 := data ++ (s.drop t.current_pos).take min_len
      let current_pos := t.current_pos + min_len
      let remaining1 := remaining - min_len
      if min_len = s_len then
        if rest.isEmpty then
          .stop { t with current_pos := 0, input_buffers := rest } remaining1 data1
        else
          .next { t with current_pos := 0, input_buffers := rest } remaining1 data1
      else
        .next { t with current_pos := current_pos } remaining1 data1

/-- Modelled from the spec: `Transport::TlsResult` is declared in the missing header
`redjs/transport.hpp`; the data model gives the outcome two values, Success
and Fail. -/
inductive TlsResult where
  | Success
  | Fail
  deriving DecidableEq, Repr

/-- Modelled from the spec: the severity levels of the logging sink are declared in the
missing header `utils/log.hpp`; these are the two that transport.cpp names. -/
inductive Priority where
  | LOG_ERR
  | LOG_DEBUG
  deriving DecidableEq, Repr

/-- One (severity, formatted message) pair handed to the logging sink. -/
structure LogRecord where
  priority : Priority
  message : String
  deriving DecidableEq, Repr

/-- `LOG_REDEMPTION` (log_as_logprint.cpp lines 30-53): one call writes one
line to the diagnostic stream, which is modelled as the list of the records
written so far. -/
def LOG_REDEMPTION (log : List LogRecord) (priority : Priority) (message : String) :
    List LogRecord :=
  log ++ [⟨priority, message⟩]

/-- Modelled from the spec: the macro `LOG` of the missing header `utils/log.hpp` hands
its severity and message to the logging sink, once. -/
def LOG (log : List LogRecord) (priority : Priority) (message : String) : List LogRecord :=
  LOG_REDEMPTION log priority message

/-- What a call of `enable_client_tls` leaves: its result, the adapter and the
log trace. -/
structure TlsOutcome where
  result : TlsResult
  t : Transport
  log : List LogRecord
  deriving DecidableEq, Repr

/-- `Transport::enable_client_tls` (transport.cpp lines 34-38). The types of
its three arguments are declared in missing headers and are parameters. -/
def enable_client_tls {CertificateChecker TlsConfig AnonymousTls : Type}
    (t : Transport) (log : List LogRecord) (_certificate_checker : CertificateChecker)
    (_tls_config : TlsConfig) (_anonymous_tls : AnonymousTls) : TlsOutcome :=
  ⟨.Fail, t, LOG log .LOG_ERR "Transport: enable_client_tls is not implemented."⟩

/-! Section: The copy loop, one pass at a time -/

theorem loop_zero (fuel : Nat) (t : Transport) (data : List Byte) :
    do_partial_read_loop (fuel + 1) t 0 data = .done t 0 data := by
  simp [do_partial_read_loop]

theorem loop_last (fuel : Nat) (s : Chunk) (pos : Nat) (out : List Byte)
    (remaining : Nat) (data : List Byte)
    (hpos : pos ≤ s.length) (hr : remaining ≠ 0) (hle : s.length - pos ≤ remaining) :
    do_partial_read_loop (fuel + 1) ⟨[s], pos, out⟩ remaining data
      = .done ⟨[], 0, out⟩ (remaining - (s.length - pos)) (data ++ s.drop pos) := by
  have h1 : ¬ s.length < pos := by omega
  have h2 : min (s.length - pos) remaining = s.length - pos := by omega
  have h3 : List.take (s.length - pos) (List.drop pos s) = List.drop pos s :=
    List.take_of_length_le (by simp)
  simp [do_partial_read_loop, hr, h1, h2, h3]

theorem loop_pop (fuel : Nat) (s c : Chunk) (rest : List Chunk) (pos : Nat)
    (out : List Byte) (remaining : Nat) (data : List Byte)
    (hpos : pos ≤ s.length) (hr : remaining ≠ 0) (hle : s.length - pos ≤ remaining) :
    do_partial_read_loop (fuel + 1) ⟨s :: c :: rest, pos, out⟩ remaining data
      = do_partial_read_loop fuel ⟨c :: rest, 0, out⟩ (remaining - (s.length - pos))
          (data ++ s.drop pos) := by
  have h1 : ¬ s.length < pos := by omega
  have h2 : min (s.length - pos) remaining = s.length - pos := by omega
  have h3 : List.take (s.length - pos) (List.drop pos s) = List.drop pos s :=
    List.take_of_length_le (by simp)
  simp [do_partial_read_loop, hr, h1, h2, h3]

theorem loop_stay (fuel : Nat) (s : Chunk) (rest : List Chunk) (pos : Nat)
    (out : List Byte) (remaining : Nat) (data : List Byte)
    (hpos : pos ≤ s.length) (hr : remaining ≠ 0) (hlt : remaining < s.length - pos) :
    do_partial_read_loop (fuel + 2) ⟨s :: rest, pos, out⟩ remaining data
      = .done ⟨s :: rest, pos + remaining, out⟩ 0
          (data ++ (s.drop pos).take remaining) := by
  have h1 : ¬ s.length < pos := by omega
  have h2 : min (s.length - pos) remaining = remaining := by omega
  have h4 : ¬ remaining = s.length - pos := by omega
  simp [do_partial_read_loop, hr, h1, h2, h4]

theorem available_cons (s : Chunk) (rest : List Chunk) (pos : Nat) (out : List Byte) :
    available ⟨s :: rest, pos, out⟩ = (s.length - pos) + (rest.map List.length).sum := rfl

theorem unread_cons (s : Chunk) (rest : List Chunk) (pos : Nat) (out : List Byte) :
    unread ⟨s :: rest, pos, out⟩ = s.drop pos ++ rest.flatten := rfl

/-- The unread stream has `available` bytes. -/
theorem length_unread (t : Transport) : (unread t).length = available t := by
  obtain ⟨q, pos, out⟩ := t
  cases q with
  | nil => rfl
  | cons s rest => simp [unread_cons, available_cons]

/-- The whole loop on a non-empty queue with the cursor inside the front
chunk: it ends normally, having copied the first `remaining` unread bytes (or
all of them), and leaves the rest of the stream in the queue. -/
theorem loop_spec (out : List Byte) : ∀ (fuel : Nat) (s : Chunk) (rest : List Chunk)
    (pos remaining : Nat) (data : List Byte),
    pos ≤ s.length → rest.length + 1 < fuel →
    ∃ t1, do_partial_read_loop fuel ⟨s :: rest, pos, out⟩ remaining data
        = .done t1 (remaining - available ⟨s :: rest, pos, out⟩)
            (data ++ (unread ⟨s :: rest, pos, out⟩).take remaining)
      ∧ unread t1 = (unread ⟨s :: rest, pos, out⟩).drop remaining
      ∧ cursor_ok t1 ∧ t1.output_buffer = out := by
  intro fuel
  induction fuel with
  | zero => intro s rest pos remaining data _ h; omega
  | succ f ih =>
    intro s rest pos remaining data hpos hfuel
    by_cases hr : remaining = 0
    · subst hr
      exact ⟨⟨s :: rest, pos, out⟩, by simp [loop_zero], by simp, hpos, rfl⟩
    · by_cases hle : s.length - pos ≤ remaining
      · have hlen : (s.drop pos).length ≤ remaining := by simpa using hle
        cases rest with
        | nil =>
          refine ⟨⟨[], 0, out⟩, ?_, ?_, rfl, rfl⟩
          · rw [loop_last f s pos out remaining data hpos hr hle]
            simp [available_cons, unread_cons, List.take_of_length_le hlen]
          · simp [unread_cons, List.drop_of_length_le hlen]
            rfl
        | cons c rest1 =>
          rw [loop_pop f s c rest1 pos out remaining data hpos hr hle]
          obtain ⟨t1, h1, h2, h3, h4⟩ :=
            ih c rest1 0 (remaining - (s.length - pos)) (data ++ s.drop pos)
              (Nat.zero_le _) (by simp at hfuel ⊢; omega)
          refine ⟨t1, ?_, ?_, h3, h4⟩
          · rw [h1]
            have e1 : remaining - (s.length - pos) - available ⟨c :: rest1, 0, out⟩
                = remaining - available ⟨s :: c :: rest1, pos, out⟩ := by
              simp only [available_cons, List.map_cons, List.sum_cons]
              omega
            have e2 : (unread ⟨s :: c :: rest1, pos, out⟩).take remaining
                = s.drop pos
                  ++ (unread ⟨c :: rest1, 0, out⟩).take (remaining - (s.length - pos)) := by
              simp only [unread_cons, List.flatten_cons, List.drop_zero]
              rw [List.take_append_eq_append_take, List.take_of_length_le hlen]
              simp
            rw [e1, e2, List.append_assoc]
          · rw [h2]
            simp only [unread_cons, List.flatten_cons, List.drop_zero]
            generalize c ++ rest1.flatten = l
            rw [List.drop_append_eq_append_drop, List.drop_of_length_le hlen]
            simp
      · have hlt : remaining < s.length - pos := by omega
        obtain ⟨g, rfl⟩ : ∃ g, f = g + 1 := ⟨f - 1, by omega⟩
        rw [loop_stay g s rest pos out remaining data hpos hr hlt]
        have hlen : remaining ≤ (s.drop pos).length := by simp; omega
        refine ⟨⟨s :: rest, pos + remaining, out⟩, ?_, ?_, ?_, rfl⟩
        · have e1 : remaining - available ⟨s :: rest, pos, out⟩ = 0 := by
            simp only [available_cons]; omega
          rw [e1, unread_cons, List.take_append_of_le_length hlen]
        · rw [unread_cons, unread_cons, List.drop_append_of_le_length hlen, List.drop_drop]
        · show pos + remaining ≤ s.length
          omega

/-- More fuel does not change a loop run that ended. -/
theorem loop_fuel_succ : ∀ (fuel : Nat) (t : Transport) (remaining : Nat) (data : List Byte),
    do_partial_read_loop fuel t remaining data ≠ .out_of_fuel →
    do_partial_read_loop (fuel + 1) t remaining data
      = do_partial_read_loop fuel t remaining data := by
  intro fuel
  induction fuel with
  | zero => intro t remaining data h; simp [do_partial_read_loop] at h
  | succ f ih =>
    intro t remaining data h
    obtain ⟨q, pos, out⟩ := t
    rw [do_partial_read_loop] at h
    conv_lhs => rw [do_partial_read_loop]
    conv_rhs => rw [do_partial_read_loop]
    by_cases hr : remaining = 0
    · simp [hr]
    · cases q with
      | nil => simp [hr]
      | cons s rest =>
        simp only [hr, if_false] at h ⊢
        split_ifs at h ⊢ with h1 h2 h3
        · rfl
        · rfl
        · exact ih _ _ _ h
        · exact ih _ _ _ h

/-- With more fuel than queued chunks the loop never runs out of fuel. -/
theorem loop_fuel_enough : ∀ (fuel : Nat) (t : Transport) (remaining : Nat) (data : List Byte),
    t.input_buffers.length < fuel →
    do_partial_read_loop fuel t remaining data ≠ .out_of_fuel := by
  intro fuel
  induction fuel with
  | zero => intro t remaining data h; omega
  | succ f ih =>
    intro t remaining data hf
    obtain ⟨q, pos, out⟩ := t
    rw [do_partial_read_loop]
    by_cases hr : remaining = 0
    · simp [hr]
    · cases q with
      | nil => simp [hr]
      | cons s rest =>
        simp only [hr, if_false]
        simp only [List.length_cons] at hf
        split_ifs with h1 h2 h3
        · simp
        · simp
        · exact ih _ _ _ (by simp; omega)
        · obtain ⟨g, rfl⟩ : ∃ g, f = g + 1 := ⟨f - 1, by omega⟩
          have h0 : remaining - min (s.length - pos) remaining = 0 := by
            simp only at h2; omega
          simp only [h0, loop_zero]
          simp

/-- The fuel that `do_partial_read` gives its loop is enough, and any larger
amount leads to the same result. -/
theorem do_partial_read_loop_fuel_irrelevant (k : Nat) (t : Transport) (remaining : Nat)
    (data : List Byte) :
    do_partial_read_loop (t.input_buffers.length + 1 + k) t remaining data
      = do_partial_read_loop (t.input_buffers.length + 1) t remaining data
    ∧ do_partial_read_loop (t.input_buffers.length + 1) t remaining data ≠ .out_of_fuel := by
  refine ⟨?_, loop_fuel_enough _ _ _ _ (Nat.lt_succ_self _)⟩
  induction k with
  | zero => rfl
  | succ k ih =>
    rw [← ih, ← Nat.add_assoc]
    exact loop_fuel_succ _ _ _ _ (loop_fuel_enough _ _ _ _ (by omega))

theorem queue_inv_cons (s : Chunk) (rest : List Chunk) (pos : Nat) (out : List Byte) :
    queue_inv ⟨s :: rest, pos, out⟩ ↔ pos < s.length ∧ s ≠ [] ∧ ∀ c ∈ rest, c ≠ [] := by
  simp [queue_inv]

theorem queue_inv_nil (pos : Nat) (out : List Byte) : queue_inv ⟨[], pos, out⟩ := by
  simp [queue_inv]

/-- A queue whose last chunk is not empty holds at least one byte. -/
theorem sum_length_pos_of_getLast : ∀ (q : List Chunk), q ≠ [] →
    (∀ c, q.getLast? = some c → c ≠ []) → 0 < (q.map List.length).sum := by
  intro q
  induction q with
  | nil => intro h; exact absurd rfl h
  | cons s rest ih =>
    intro _ hl
    cases rest with
    | nil =>
      have : s ≠ [] := hl s (by simp)
      have := List.length_pos.mpr this
      simpa using this
    | cons c rest1 =>
      have := ih (by simp) (by simpa using hl)
      simp only [List.map_cons, List.sum_cons] at this ⊢
      omega

/-- What the loop leaves in the queue: it keeps the Input Queue invariant, and
it empties the queue when the request exceeds the unread bytes, or equals them
and the last chunk is not empty. -/
theorem loop_queue (out : List Byte) : ∀ (fuel : Nat) (s : Chunk) (rest : List Chunk)
    (pos remaining : Nat) (data : List Byte) (t1 : Transport) (r1 : Nat) (d1 : List Byte),
    pos ≤ s.length →
    do_partial_read_loop fuel ⟨s :: rest, pos, out⟩ remaining data = .done t1 r1 d1 →
    (queue_inv ⟨s :: rest, pos, out⟩ → queue_inv t1)
    ∧ (available ⟨s :: rest, pos, out⟩ < remaining → t1.input_buffers = [])
    ∧ (available ⟨s :: rest, pos, out⟩ ≤ remaining → 0 < remaining →
        (∀ c, (s :: rest).getLast? = some c → c ≠ []) → t1.input_buffers = []) := by
  intro fuel
  induction fuel with
  | zero => intro s rest pos remaining data t1 r1 d1 _ h; simp [do_partial_read_loop] at h
  | succ f ih =>
    intro s rest pos remaining data t1 r1 d1 hpos h
    by_cases hr : remaining = 0
    · subst hr
      rw [loop_zero] at h
      injection h with h _ _
      subst h
      exact ⟨id, fun h => absurd h (Nat.not_lt_zero _), fun _ h => absurd h (Nat.lt_irrefl _)⟩
    · by_cases hle : s.length - pos ≤ remaining
      · cases rest with
        | nil =>
          rw [loop_last f s pos out remaining data hpos hr hle] at h
          injection h with h _ _
          subst h
          exact ⟨fun _ => queue_inv_nil _ _, fun _ => rfl, fun _ _ _ => rfl⟩
        | cons c rest1 =>
          rw [loop_pop f s c rest1 pos out remaining data hpos hr hle] at h
          obtain ⟨i1, i2, i3⟩ := ih c rest1 0 _ _ t1 r1 d1 (Nat.zero_le _) h
          have hav : available ⟨s :: c :: rest1, pos, out⟩
              = (s.length - pos) + available ⟨c :: rest1, 0, out⟩ := by
            simp [available_cons]
          refine ⟨fun hq => i1 ?_, fun hlt => i2 (by omega), fun hle2 _ hl => ?_⟩
          · rw [queue_inv_cons] at hq ⊢
            obtain ⟨_, _, h3⟩ := hq
            have hc : c ≠ [] := h3 c (by simp)
            exact ⟨List.length_pos.mpr hc, hc, fun x hx => h3 x (by simp [hx])⟩
          · have hl1 : ∀ x, (c :: rest1).getLast? = some x → x ≠ [] := by
              simpa using hl
            have hpos1 := sum_length_pos_of_getLast (c :: rest1) (by simp) hl1
            have hav1 : available ⟨c :: rest1, 0, out⟩ = ((c :: rest1).map List.length).sum := by
              simp [available_cons]
            exact i3 (by omega) (by omega) hl1
      · have hlt : remaining < s.length - pos := by omega
        have hav : s.length - pos ≤ available ⟨s :: rest, pos, out⟩ := by
          simp [available_cons]
        cases f with
        | zero =>
          have h4 : ¬ s.length < pos := by omega
          have h5 : min (s.length - pos) remaining = remaining := by omega
          have h6 : ¬ remaining = s.length - pos := by omega
          simp [do_partial_read_loop, hr, h4, h5, h6] at h
        | succ g =>
          rw [loop_stay g s rest pos out remaining data hpos hr hlt] at h
          injection h with h _ _
          subst h
          refine ⟨fun hq => ?_, fun h => by omega, fun h => by omega⟩
          rw [queue_inv_cons] at hq ⊢
          exact ⟨by omega, hq.2⟩

/-! Section: One call of `do_partial_read` -/

/-- On an empty queue the read throws and touches nothing. -/
theorem read_nil (pos : Nat) (out : List Byte) (len : Nat) :
    do_partial_read ⟨[], pos, out⟩ len
      = ⟨⟨[], pos, out⟩, [], .thrown .ERR_TRANSPORT_NO_MORE_DATA⟩ := by
  simp [do_partial_read, do_partial_read_fuel]

/-- On a non-empty queue with the cursor inside the front chunk the read
returns `min len available` and copies that prefix of the unread stream. -/
theorem read_cons (s : Chunk) (rest : List Chunk) (pos : Nat) (out : List Byte) (len : Nat)
    (hpos : pos ≤ s.length) :
    ∃ t1, do_partial_read ⟨s :: rest, pos, out⟩ len
        = ⟨t1, (unread ⟨s :: rest, pos, out⟩).take len,
            .returned (min len (available ⟨s :: rest, pos, out⟩))⟩
      ∧ unread t1 = (unread ⟨s :: rest, pos, out⟩).drop len
      ∧ cursor_ok t1 ∧ t1.output_buffer = out
      ∧ (queue_inv ⟨s :: rest, pos, out⟩ → queue_inv t1)
      ∧ (available ⟨s :: rest, pos, out⟩ < len → t1.input_buffers = [])
      ∧ (available ⟨s :: rest, pos, out⟩ ≤ len → 0 < len →
          (∀ c, (s :: rest).getLast? = some c → c ≠ []) → t1.input_buffers = []) := by
  obtain ⟨t1, h1, h2, h3, h4⟩ :=
    loop_spec out (rest.length + 1 + 1) s rest pos len [] hpos (Nat.lt_succ_self _)
  obtain ⟨h5, h6, h7⟩ := loop_queue out _ s rest pos len [] t1 _ _ hpos h1
  refine ⟨t1, ?_, h2, h3, h4, h5, h6, h7⟩
  have e : len - (len - available ⟨s :: rest, pos, out⟩)
      = min len (available ⟨s :: rest, pos, out⟩) := by omega
  simp only [do_partial_read, do_partial_read_fuel, List.length_cons, List.isEmpty_cons,
    Bool.false_eq_true, if_false, h1, List.nil_append, e]

/-- An adapter whose queue is empty and that satisfies `cursor_ok` has cursor 0. -/
theorem cursor_ok_nil (t : Transport) (h : cursor_ok t) (hq : t.input_buffers = []) :
    t.current_pos = 0 := by
  obtain ⟨q, pos, out⟩ := t
  simp only at hq
  subst hq
  exact h

/-- Taking `min len available` bytes of the unread stream is taking `len`. -/
theorem take_min_available (t : Transport) (len : Nat) :
    (unread t).take (min len (available t)) = (unread t).take len := by
  rw [← length_unread, List.take_eq_take]
  omega

/-! Section: Sequences of calls -/

theorem unread_push (t : Transport) (data : Chunk) (h : cursor_ok t) :
    unread (push_input_buffer t data) = unread t ++ data := by
  obtain ⟨q, pos, out⟩ := t
  cases q with
  | nil =>
    have : pos = 0 := h
    subst this
    simp [push_input_buffer, unread]
  | cons s rest => simp [push_input_buffer, unread]

theorem cursor_ok_push (t : Transport) (data : Chunk) (h : cursor_ok t) :
    cursor_ok (push_input_buffer t data) := by
  obtain ⟨q, pos, out⟩ := t
  cases q with
  | nil =>
    have : pos = 0 := h
    subst this
    exact Nat.zero_le _
  | cons s rest => exact h

theorem queue_inv_push (t : Transport) (data : Chunk) (h : cursor_ok t) (hq : queue_inv t)
    (hd : data ≠ []) : queue_inv (push_input_buffer t data) := by
  obtain ⟨q, pos, out⟩ := t
  cases q with
  | nil =>
    have : pos = 0 := h
    subst this
    simp only [push_input_buffer, List.nil_append]
    rw [queue_inv_cons]
    exact ⟨List.length_pos.mpr hd, hd, by simp⟩
  | cons s rest =>
    rw [queue_inv_cons] at hq
    simp only [push_input_buffer, List.cons_append]
    rw [queue_inv_cons]
    refine ⟨hq.1, hq.2.1, ?_⟩
    intro c hc
    rcases List.mem_append.mp hc with h1 | h1
    · exact hq.2.2 c h1
    · simp only [List.mem_singleton] at h1
      exact h1 ▸ hd

/-- One call keeps the cursor inside the front chunk, and the bytes it returns
followed by the unread stream are the old unread stream followed by what it
pushed. -/
theorem step_stream (t : Transport) (op : Op) (h : cursor_ok t) :
    cursor_ok (step t op).1
    ∧ (step t op).2 ++ unread (step t op).1 = unread t ++ pushed [op] := by
  cases op with
  | push data =>
    exact ⟨cursor_ok_push t data h, by simp [step, pushed, unread_push t data h]⟩
  | read len =>
    obtain ⟨q, pos, out⟩ := t
    cases q with
    | nil => simp only [step, read_nil, pushed]; exact ⟨h, by simp⟩
    | cons s rest =>
      obtain ⟨t1, h1, h2, h3, _⟩ := read_cons s rest pos out len h
      simp only [step, h1, h2, pushed, List.take_append_drop, List.append_nil]
      exact ⟨h3, trivial⟩
  | send buffer => exact ⟨h, by simp [step, pushed, do_send, unread]⟩
  | clear => exact ⟨h, by simp [step, pushed, clear_output_buffer, unread]⟩

/-- One call that pushes no empty chunk keeps the Input Queue invariant. -/
theorem step_queue_inv (t : Transport) (op : Op) (h : cursor_ok t) (hq : queue_inv t)
    (hp : pushes_nonempty [op]) : queue_inv (step t op).1 := by
  cases op with
  | push data => exact queue_inv_push t data h hq hp.1
  | read len =>
    obtain ⟨q, pos, out⟩ := t
    cases q with
    | nil => simp only [step, read_nil]; exact hq
    | cons s rest =>
      obtain ⟨t1, h1, _, _, _, h5, _⟩ := read_cons s rest pos out len h
      simp only [step, h1]
      exact h5 hq
  | send buffer => exact hq
  | clear => exact hq

theorem pushed_cons (op : Op) (ops : List Op) : pushed (op :: ops) = pushed [op] ++ pushed ops := by
  cases op <;> simp [pushed]

theorem pushes_nonempty_cons (op : Op) (ops : List Op) :
    pushes_nonempty (op :: ops) ↔ pushes_nonempty [op] ∧ pushes_nonempty ops := by
  cases op <;> simp [pushes_nonempty]

/-- A sequence of calls from a state with the cursor inside the front chunk:
what the reads returned, followed by the unread stream, is the old unread
stream followed by everything pushed. -/
theorem run_stream : ∀ (ops : List Op) (t : Transport), cursor_ok t →
    cursor_ok (run t ops).1
    ∧ (run t ops).2 ++ unread (run t ops).1 = unread t ++ pushed ops := by
  intro ops
  induction ops with
  | nil => intro t h; exact ⟨h, by simp [run, pushed]⟩
  | cons op ops ih =>
    intro t h
    obtain ⟨h1, h2⟩ := step_stream t op h
    obtain ⟨h3, h4⟩ := ih (step t op).1 h1
    refine ⟨h3, ?_⟩
    simp only [run]
    rw [List.append_assoc, h4, ← List.append_assoc, h2, pushed_cons op ops, List.append_assoc]

/-- A sequence of calls that pushes no empty chunk keeps the Input Queue
invariant. -/
theorem run_queue_inv : ∀ (ops : List Op) (t : Transport), cursor_ok t → queue_inv t →
    pushes_nonempty ops → queue_inv (run t ops).1 := by
  intro ops
  induction ops with
  | nil => intro t _ hq _; exact hq
  | cons op ops ih =>
    intro t h hq hp
    rw [pushes_nonempty_cons] at hp
    exact ih (step t op).1 (step_stream t op h).1 (step_queue_inv t op h hq hp.1) hp.2

/-- Sends append their buffers to the accumulator, in send order. -/
theorem get_output_buffer_foldl_send : ∀ (bufs : List (List Byte)) (t : Transport),
    get_output_buffer (bufs.foldl do_send t) = get_output_buffer t ++ bufs.flatten := by
  intro bufs
  induction bufs with
  | nil => intro t; simp
  | cons b bufs ih =>
    intro t
    rw [List.foldl_cons, ih]
    simp [get_output_buffer, do_send]

/-! Section: The claims -/

/-- C1: on a non-empty queue with cursor `pos ≤ len(front)`, the partial read
does not fail: it returns `n = min(len, available)` where
`available = (len(front) - pos) + sum of the lengths of the other chunks`, and
the bytes written to the caller's buffer are the first `n` bytes of the unread
stream (front chunk from `pos` on, then the other chunks in queue order). -/
theorem C1_read_returns_min_and_prefix (s : Chunk) (rest : List Chunk) (pos : Nat)
    (out : List Byte) (len : Nat) (hpos : pos ≤ s.length) :
    (do_partial_read ⟨s :: rest, pos, out⟩ len).status
        = .returned (min len ((s.length - pos) + (rest.map List.length).sum))
    ∧ (do_partial_read ⟨s :: rest, pos, out⟩ len).data
        = (s.drop pos ++ rest.flatten).take
            (min len ((s.length - pos) + (rest.map List.length).sum)) := by
  obtain ⟨t1, h1, _⟩ := read_cons s rest pos out len hpos
  rw [h1]
  exact ⟨rfl, (take_min_available ⟨s :: rest, pos, out⟩ len).symm⟩

theorem C1_read_returns_min_and_prefix_witness :
    1 ≤ (bytes "1234").length
    ∧ (do_partial_read ⟨[bytes "1234", bytes "5678"], 1, []⟩ 5).status = .returned 5
    ∧ (do_partial_read ⟨[bytes "1234", bytes "5678"], 1, []⟩ 5).data = bytes "23456" :=
  ⟨by decide,
   C1_read_returns_min_and_prefix (bytes "1234") [bytes "5678"] 1 [] 5 (by decide)⟩

/-- C2: for every sequence of calls from a fresh adapter, the bytes returned by
the successful reads, followed by the unread stream still queued, are the
pushed chunks concatenated in push order. -/
theorem C2_reads_then_unread_eq_pushed (ops : List Op) :
    (run Transport.fresh ops).2 ++ unread (run Transport.fresh ops).1 = pushed ops := by
  have h := (run_stream ops Transport.fresh rfl).2
  simpa [Transport.fresh, unread] using h

/-- C3: the partial read throws `ERR_TRANSPORT_NO_MORE_DATA` exactly when the
queue is empty at entry, whatever the requested length; it then leaves the
adapter unchanged and writes nothing; it throws nothing else, and on a
non-empty queue with the cursor inside the front chunk it returns. -/
theorem C3_throws_iff_queue_empty (t : Transport) (len : Nat) :
    ((do_partial_read t len).status = .thrown .ERR_TRANSPORT_NO_MORE_DATA
        ↔ t.input_buffers = [])
    ∧ (t.input_buffers = [] →
        (do_partial_read t len).t = t ∧ (do_partial_read t len).data = [])
    ∧ (∀ e, (do_partial_read t len).status = .thrown e → t.input_buffers = [])
    ∧ (t.input_buffers ≠ [] → cursor_ok t →
        ∃ n, (do_partial_read t len).status = .returned n) := by
  obtain ⟨q, pos, out⟩ := t
  cases q with
  | nil => simp [read_nil]
  | cons s rest =>
    have hthrow : ∀ e, (do_partial_read ⟨s :: rest, pos, out⟩ len).status ≠ .thrown e := by
      intro e
      simp only [do_partial_read, do_partial_read_fuel, List.isEmpty_cons,
        Bool.false_eq_true, if_false]
      split <;> simp
    refine ⟨⟨fun h => absurd h (hthrow _), fun h => by simp at h⟩, fun h => by simp at h,
      fun e h => absurd h (hthrow e), fun _ hc => ?_⟩
    obtain ⟨t1, h1, _⟩ := read_cons s rest pos out len hc
    exact ⟨_, by rw [h1]⟩

theorem C3_throws_iff_queue_empty_witness :
    (do_partial_read Transport.fresh 0).status = .thrown .ERR_TRANSPORT_NO_MORE_DATA
    ∧ (do_partial_read Transport.fresh 0).t = Transport.fresh
    ∧ (do_partial_read Transport.fresh 0).data = []
    ∧ ∃ n, (do_partial_read ⟨[bytes "ab"], 1, []⟩ 4).status = .returned n :=
  ⟨(C3_throws_iff_queue_empty Transport.fresh 0).1.mpr rfl,
   ((C3_throws_iff_queue_empty Transport.fresh 0).2.1 rfl).1,
   ((C3_throws_iff_queue_empty Transport.fresh 0).2.1 rfl).2,
   (C3_throws_iff_queue_empty ⟨[bytes "ab"], 1, []⟩ 4).2.2.2 (by decide) (by decide)⟩

/-- C4, as stated, fails: after the push of an empty chunk no byte is unread,
yet a read of one byte returns 0 instead of throwing. -/
theorem C4_counterexample :
    unread (run Transport.fresh [.push []]).1 = []
    ∧ (do_partial_read (run Transport.fresh [.push []]).1 1).status = .returned 0 := by
  decide

/-- C4 (amended): from a fresh adapter, after any sequence of calls whose pushes
are all non-empty and that leaves no unread byte, a read of any requested
length (so of any positive one) throws `ERR_TRANSPORT_NO_MORE_DATA`. -/
theorem C4_drained_read_throws (ops : List Op) (hp : pushes_nonempty ops)
    (hu : unread (run Transport.fresh ops).1 = []) (len : Nat) :
    (do_partial_read (run Transport.fresh ops).1 len).status
      = .thrown .ERR_TRANSPORT_NO_MORE_DATA := by
  have hq := run_queue_inv ops Transport.fresh rfl (queue_inv_nil _ _) hp
  generalize (run Transport.fresh ops).1 = t at hq hu
  obtain ⟨q, pos, out⟩ := t
  cases q with
  | nil => rw [read_nil]
  | cons s rest =>
    rw [queue_inv_cons] at hq
    rw [unread_cons] at hu
    have h1 : (s.drop pos).length = 0 := by
      have := congrArg List.length hu
      simp only [List.length_append, List.length_nil] at this
      omega
    simp only [List.length_drop] at h1
    omega

theorem C4_drained_read_throws_witness :
    pushes_nonempty [.push (bytes "ab"), .read 2]
    ∧ unread (run Transport.fresh [.push (bytes "ab"), .read 2]).1 = []
    ∧ (do_partial_read (run Transport.fresh [.push (bytes "ab"), .read 2]).1 5).status
        = .thrown .ERR_TRANSPORT_NO_MORE_DATA :=
  ⟨by simp [pushes_nonempty, bytes], by decide,
   C4_drained_read_throws [.push (bytes "ab"), .read 2] (by simp [pushes_nonempty, bytes])
     (by decide) 5⟩

/-- C5: short read. On a non-empty queue with the cursor inside the front chunk
and a request larger than the available byte count, the read does not fail,
returns the available count (less than the request) and leaves the queue
empty with the cursor at 0. -/
theorem C5_short_read (s : Chunk) (rest : List Chunk) (pos : Nat) (out : List Byte)
    (len : Nat) (hpos : pos ≤ s.length)
    (hlen : (s.length - pos) + (rest.map List.length).sum < len) :
    (do_partial_read ⟨s :: rest, pos, out⟩ len).status
        = .returned ((s.length - pos) + (rest.map List.length).sum)
    ∧ (do_partial_read ⟨s :: rest, pos, out⟩ len).t.input_buffers = []
    ∧ (do_partial_read ⟨s :: rest, pos, out⟩ len).t.current_pos = 0 := by
  obtain ⟨t1, h1, _, h3, _, _, h6, _⟩ := read_cons s rest pos out len hpos
  rw [h1]
  have hq : t1.input_buffers = [] := h6 hlen
  refine ⟨?_, hq, cursor_ok_nil t1 h3 hq⟩
  show ReadStatus.returned (min len (available ⟨s :: rest, pos, out⟩)) = _
  rw [available_cons, Nat.min_eq_right (Nat.le_of_lt hlen)]

theorem C5_short_read_witness :
    push_input_buffer Transport.fresh (bytes "ab") = ⟨[bytes "ab"], 0, []⟩
    ∧ (do_partial_read ⟨[bytes "ab"], 0, []⟩ 10).status = .returned 2
    ∧ (do_partial_read ⟨[bytes "ab"], 0, []⟩ 10).t.input_buffers = []
    ∧ (do_partial_read ⟨[bytes "ab"], 0, []⟩ 10).t.current_pos = 0 :=
  ⟨rfl, C5_short_read (bytes "ab") [] 0 [] 10 (by decide) (by decide)⟩

/-- C6, as stated, fails: with an empty last chunk the read of the combined
length returns every byte but leaves the empty chunk in the queue. -/
theorem C6_counterexample :
    (do_partial_read
        (push_input_buffer (push_input_buffer (push_input_buffer Transport.fresh
          (bytes "a")) (bytes "b")) (bytes "")) 2).status = .returned 2
    ∧ (do_partial_read
        (push_input_buffer (push_input_buffer (push_input_buffer Transport.fresh
          (bytes "a")) (bytes "b")) (bytes "")) 2).t.input_buffers ≠ [] := by
  decide

/-- C6 (amended): round trip. For all chunks `A`, `B`, `C`, after the three
pushes on a fresh adapter one read of `len(A) + len(B) + len(C)` bytes returns
that count and copies exactly `A ++ B ++ C`; when `C` is not empty the queue is
empty afterwards, with the cursor at 0. -/
theorem C6_round_trip (A B C : Chunk) :
    ((do_partial_read
        (push_input_buffer (push_input_buffer (push_input_buffer Transport.fresh A) B) C)
        (A.length + B.length + C.length)).status
          = .returned (A.length + B.length + C.length)
      ∧ (do_partial_read
        (push_input_buffer (push_input_buffer (push_input_buffer Transport.fresh A) B) C)
        (A.length + B.length + C.length)).data = A ++ B ++ C)
    ∧ (C ≠ [] →
        (do_partial_read
          (push_input_buffer (push_input_buffer (push_input_buffer Transport.fresh A) B) C)
          (A.length + B.length + C.length)).t.input_buffers = []
        ∧ (do_partial_read
          (push_input_buffer (push_input_buffer (push_input_buffer Transport.fresh A) B) C)
          (A.length + B.length + C.length)).t.current_pos = 0) := by
  have e : push_input_buffer (push_input_buffer (push_input_buffer Transport.fresh A) B) C
      = ⟨A :: [B, C], 0, []⟩ := rfl
  rw [e]
  obtain ⟨t1, h1, _, h3, _, _, _, h7⟩ :=
    read_cons A [B, C] 0 [] (A.length + B.length + C.length) (Nat.zero_le _)
  have hav : available ⟨A :: [B, C], 0, []⟩ = A.length + B.length + C.length := by
    simp [available_cons]; omega
  rw [h1, hav]
  refine ⟨⟨by simp, ?_⟩, fun hC => ?_⟩
  · show List.take _ (unread ⟨A :: [B, C], 0, []⟩) = _
    rw [unread_cons]
    simp only [List.drop_zero, List.flatten_cons, List.flatten_nil, List.append_nil]
    rw [← List.append_assoc]
    exact List.take_of_length_le (by simp only [List.length_append]; omega)
  · have hlen : 0 < C.length := List.length_pos.mpr hC
    have hq : t1.input_buffers = [] :=
      h7 (Nat.le_of_eq hav) (by omega) (by simpa using hC)
    exact ⟨hq, cursor_ok_nil t1 h3 hq⟩

theorem C6_round_trip_witness :
    bytes "c" ≠ []
    ∧ (do_partial_read
        (push_input_buffer (push_input_buffer (push_input_buffer Transport.fresh
          (bytes "a")) (bytes "")) (bytes "c")) 2).data = bytes "ac"
    ∧ (do_partial_read
        (push_input_buffer (push_input_buffer (push_input_buffer Transport.fresh
          (bytes "a")) (bytes "")) (bytes "c")) 2).t.input_buffers = [] :=
  ⟨by decide,
   (C6_round_trip (bytes "a") (bytes "") (bytes "c")).1.2,
   ((C6_round_trip (bytes "a") (bytes "") (bytes "c")).2 (by decide)).1⟩

/-- C7, as stated, fails: after the read of 5 bytes the queue does not hold the
one byte "6" but the three bytes "678". -/
theorem C7_counterexample :
    unread (do_partial_read
      (push_input_buffer (push_input_buffer Transport.fresh (bytes "1234")) (bytes "5678"))
      5).t ≠ bytes "6"
    ∧ available (do_partial_read
      (push_input_buffer (push_input_buffer Transport.fresh (bytes "1234")) (bytes "5678"))
      5).t = 3 := by
  decide

/-- C7 (amended): boundary-crossing read. After `push("1234")` and
`push("5678")` on a fresh adapter a read of 5 bytes returns 5 and copies
"12345"; the queue then holds the chunk "5678" with the cursor at 1, that is
the three unread bytes "678", of which "6" is the next to be read. -/
theorem C7_boundary_crossing_read :
    do_partial_read
      (push_input_buffer (push_input_buffer Transport.fresh (bytes "1234")) (bytes "5678")) 5
      = ⟨⟨[bytes "5678"], 1, []⟩, bytes "12345", .returned 5⟩
    ∧ unread ⟨[bytes "5678"], 1, []⟩ = bytes "678"
    ∧ (do_partial_read ⟨[bytes "5678"], 1, []⟩ 1).data = bytes "6" := by
  decide

/-- C8, as stated, fails: the push of an empty chunk on a fresh adapter leaves a
non-empty queue that holds an empty chunk, with the cursor not below the
length of the front chunk. -/
theorem C8_counterexample :
    (run Transport.fresh [.push []]).1.input_buffers = [[]]
    ∧ (run Transport.fresh [.push []]).1.current_pos = 0
    ∧ ¬ queue_inv (run Transport.fresh [.push []]).1 := by
  decide

/-- C8 (amended): in every state reached from a fresh adapter by pushes of
non-empty chunks, reads, sends and clears, the cursor is below the length of
the front chunk whenever the queue is non-empty, and no queued chunk is
empty. -/
theorem C8_queue_invariant (ops : List Op) (hp : pushes_nonempty ops) :
    (∀ s rest, (run Transport.fresh ops).1.input_buffers = s :: rest →
        (run Transport.fresh ops).1.current_pos < s.length)
    ∧ (∀ c ∈ (run Transport.fresh ops).1.input_buffers, c ≠ []) := by
  have hq := run_queue_inv ops Transport.fresh rfl (queue_inv_nil _ _) hp
  refine ⟨fun s rest h => ?_, hq.2⟩
  exact hq.1 s (by simp [h])

theorem C8_queue_invariant_witness :
    pushes_nonempty [.push (bytes "1234"), .push (bytes "5678"), .read 5, .send (bytes "x"),
      .clear]
    ∧ ((∀ s rest, (run Transport.fresh [.push (bytes "1234"), .push (bytes "5678"), .read 5,
          .send (bytes "x"), .clear]).1.input_buffers = s :: rest →
        (run Transport.fresh [.push (bytes "1234"), .push (bytes "5678"), .read 5,
          .send (bytes "x"), .clear]).1.current_pos < s.length)
      ∧ (∀ c ∈ (run Transport.fresh [.push (bytes "1234"), .push (bytes "5678"), .read 5,
          .send (bytes "x"), .clear]).1.input_buffers, c ≠ [])) :=
  ⟨by simp [pushes_nonempty, bytes],
   C8_queue_invariant _ (by simp [pushes_nonempty, bytes])⟩

/-- C9: a send appends its bytes to what drain returned before it, in every
state, and therefore after any sequence of sends drain returns what it
returned before them followed by all sent buffers in send order: exactly
those buffers when the accumulator was empty, as it is after a clear. -/
theorem C9_send_appends (t : Transport) (buffer : List Byte) (bufs : List (List Byte)) :
    get_output_buffer (do_send t buffer) = get_output_buffer t ++ buffer
    ∧ get_output_buffer (bufs.foldl do_send t) = get_output_buffer t ++ bufs.flatten
    ∧ (get_output_buffer t = [] → get_output_buffer (bufs.foldl do_send t) = bufs.flatten) := by
  refine ⟨rfl, get_output_buffer_foldl_send bufs t, fun h => ?_⟩
  rw [get_output_buffer_foldl_send, h, List.nil_append]

theorem C9_send_appends_witness :
    get_output_buffer ([bytes "x", bytes "yz"].foldl do_send Transport.fresh) = bytes "xyz" :=
  (C9_send_appends Transport.fresh [] [bytes "x", bytes "yz"]).2.2 rfl

/-- C10: after a clear drain returns the empty sequence, and after a clear
followed by sends drain returns exactly the sent buffers in order, with none
of the bytes sent before the clear. On a fresh adapter: send("x"), send("yz"),
drain = "xyz", clear, drain = empty. -/
theorem C10_clear_discards (t : Transport) (bufs : List (List Byte)) :
    get_output_buffer (clear_output_buffer t) = []
    ∧ get_output_buffer (bufs.foldl do_send (clear_output_buffer t)) = bufs.flatten
    ∧ get_output_buffer (do_send (do_send Transport.fresh (bytes "x")) (bytes "yz"))
        = bytes "xyz"
    ∧ get_output_buffer
        (clear_output_buffer (do_send (do_send Transport.fresh (bytes "x")) (bytes "yz")))
        = [] := by
  refine ⟨rfl, ?_, by decide, rfl⟩
  rw [get_output_buffer_foldl_send]
  rfl

/-! Section: Frame properties, identity and the TLS hook -/

/-- The loop is its body repeated for as long as `remaining` is not 0. -/
theorem loop_unfold_pass (fuel : Nat) (t : Transport) (remaining : Nat) (data : List Byte) :
    do_partial_read_loop (fuel + 1) t remaining data
      = if remaining = 0 then .done t remaining data
        else match loop_pass t remaining data with
          | .next t1 r1 d1 => do_partial_read_loop fuel t1 r1 d1
          | .stop t1 r1 d1 => .done t1 r1 d1
          | .undefined => .undefined := by
  obtain ⟨q, pos, out⟩ := t
  rw [do_partial_read_loop]
  by_cases hr : remaining = 0
  · simp [hr]
  · cases q with
    | nil => simp [hr, loop_pass]
    | cons s rest =>
      simp only [hr, if_false, loop_pass]
      split_ifs <;> rfl

/-- The loop never touches the output accumulator. -/
theorem loop_output : ∀ (fuel : Nat) (t : Transport) (remaining : Nat) (data : List Byte)
    (t1 : Transport) (r1 : Nat) (d1 : List Byte),
    do_partial_read_loop fuel t remaining data = .done t1 r1 d1 →
    t1.output_buffer = t.output_buffer := by
  intro fuel
  induction fuel with
  | zero => intro t remaining data t1 r1 d1 h; simp [do_partial_read_loop] at h
  | succ f ih =>
    intro t remaining data t1 r1 d1 h
    obtain ⟨q, pos, out⟩ := t
    rw [do_partial_read_loop] at h
    by_cases hr : remaining = 0
    · simp only [hr, if_true] at h
      injection h with h _ _
      rw [← h]
    · cases q with
      | nil => simp [hr] at h
      | cons s rest =>
        simp only [hr, if_false] at h
        split_ifs at h with h1 h2 h3
        · injection h with h _ _
          rw [← h]
        · have h4 := ih _ _ _ _ _ _ h
          exact h4
        · have h4 := ih _ _ _ _ _ _ h
          exact h4

/-- A read, whether it returns or throws, leaves the output accumulator as it
was. -/
theorem read_output (t : Transport) (len : Nat) :
    (do_partial_read t len).t.output_buffer = t.output_buffer := by
  simp only [do_partial_read, do_partial_read_fuel]
  split
  · rfl
  · split
    · next h => exact loop_output _ _ _ _ _ _ _ h
    · rfl
    · rfl

/-- A sequence of calls without a clear only appends to the accumulator. -/
theorem run_output_prefix : ∀ (ops : List Op) (t : Transport), Op.clear ∉ ops →
    t.output_buffer <+: (run t ops).1.output_buffer := by
  intro ops
  induction ops with
  | nil => intro t _; exact List.prefix_refl _
  | cons op ops ih =>
    intro t h
    have h1 : op ≠ Op.clear := fun e => h (by simp [e])
    have h2 : Op.clear ∉ ops := fun e => h (by simp [e])
    have h3 : t.output_buffer <+: (step t op).1.output_buffer := by
      cases op with
      | push data => exact List.prefix_refl _
      | read len => simp only [step]; rw [read_output]
      | send buffer => exact List.prefix_append _ _
      | clear => exact absurd rfl h1
    exact List.IsPrefix.trans h3 (ih _ h2)

/-- A push adds the length of its chunk to the available byte count. -/
theorem available_push (t : Transport) (data : Chunk) (h : cursor_ok t) :
    available (push_input_buffer t data) = available t + data.length := by
  obtain ⟨q, pos, out⟩ := t
  cases q with
  | nil =>
    have : pos = 0 := h
    subst this
    simp [push_input_buffer, available]
  | cons s rest =>
    simp only [push_input_buffer, List.cons_append, available_cons, List.map_append,
      List.sum_append, List.map_cons, List.map_nil, List.sum_cons, List.sum_nil]
    omega

/-- C11: clear is idempotent: clearing twice is clearing once, and clearing an
adapter whose accumulator is already empty returns it unchanged. -/
theorem C11_clear_idempotent (t : Transport) :
    clear_output_buffer (clear_output_buffer t) = clear_output_buffer t
    ∧ (get_output_buffer t = [] → clear_output_buffer t = t) := by
  refine ⟨rfl, fun h => ?_⟩
  obtain ⟨q, pos, out⟩ := t
  simp only [get_output_buffer] at h
  subst h
  rfl

theorem C11_clear_idempotent_witness :
    clear_output_buffer ⟨[bytes "ab"], 1, []⟩ = ⟨[bytes "ab"], 1, []⟩ :=
  (C11_clear_idempotent ⟨[bytes "ab"], 1, []⟩).2 rfl

/-- C12: the accumulated bytes change only through send and clear. Drain
returns them as they are; push, read (returning or throwing) and the TLS
upgrade leave them, and the whole adapter in the case of the TLS upgrade, as
they were; over any sequence of calls without a clear the old contents are a
prefix of the new ones. Send and clear leave the input queue and the cursor
unchanged. (Drain and identity are `const` member functions: functions of the
state that produce no new state.) -/
theorem C12_accumulator_frame {CertificateChecker TlsConfig AnonymousTls : Type}
    (t : Transport) (data : Chunk) (len : Nat) (buffer : List Byte) (ops : List Op)
    (log : List LogRecord) (certificate_checker : CertificateChecker)
    (tls_config : TlsConfig) (anonymous_tls : AnonymousTls) :
    get_output_buffer t = t.output_buffer
    ∧ get_output_buffer (push_input_buffer t data) = get_output_buffer t
    ∧ get_output_buffer (do_partial_read t len).t = get_output_buffer t
    ∧ (enable_client_tls t log certificate_checker tls_config anonymous_tls).t = t
    ∧ (Op.clear ∉ ops → get_output_buffer t <+: get_output_buffer (run t ops).1)
    ∧ ((do_send t buffer).input_buffers = t.input_buffers
        ∧ (do_send t buffer).current_pos = t.current_pos)
    ∧ ((clear_output_buffer t).input_buffers = t.input_buffers
        ∧ (clear_output_buffer t).current_pos = t.current_pos) :=
  ⟨rfl, rfl, read_output t len, rfl, run_output_prefix ops t, ⟨rfl, rfl⟩, ⟨rfl, rfl⟩⟩

theorem C12_accumulator_frame_witness :
    get_output_buffer (do_send Transport.fresh (bytes "x"))
      <+: get_output_buffer
        (run (do_send Transport.fresh (bytes "x"))
          [.push (bytes "ab"), .read 1, .send (bytes "yz"), .read 5, .read 1]).1 :=
  (C12_accumulator_frame (do_send Transport.fresh (bytes "x")) [] 0 []
    [.push (bytes "ab"), .read 1, .send (bytes "yz"), .read 5, .read 1] [] () () ()).2.2.2.2.1
    (by decide)

/-- C13: a push always succeeds and yields the old queue followed by the new
chunk: the queued chunks, the cursor and the accumulator are unchanged, and
with the cursor in its range (0 on an empty queue, as in every reachable
state) the available byte count grows by the length of the chunk. -/
theorem C13_push_appends (t : Transport) (chunk : Chunk) :
    (push_input_buffer t chunk).input_buffers = t.input_buffers ++ [chunk]
    ∧ (push_input_buffer t chunk).current_pos = t.current_pos
    ∧ (push_input_buffer t chunk).output_buffer = t.output_buffer
    ∧ (cursor_ok t → available (push_input_buffer t chunk) = available t + chunk.length) :=
  ⟨rfl, rfl, rfl, available_push t chunk⟩

theorem C13_push_appends_witness :
    available (push_input_buffer ⟨[bytes "1234"], 3, []⟩ (bytes "5678"))
      = available ⟨[bytes "1234"], 3, []⟩ + (bytes "5678").length :=
  (C13_push_appends ⟨[bytes "1234"], 3, []⟩ (bytes "5678")).2.2.2 (by decide)

/-- C14: the TLS upgrade returns Fail for every certificate checker, TLS
configuration and anonymous-mode flag, in every adapter state, and adds
exactly one record, of error severity, to the log trace; the adapter is
unchanged. -/
theorem C14_tls_upgrade_fails {CertificateChecker TlsConfig AnonymousTls : Type}
    (t : Transport) (log : List LogRecord) (certificate_checker : CertificateChecker)
    (tls_config : TlsConfig) (anonymous_tls : AnonymousTls) :
    (enable_client_tls t log certificate_checker tls_config anonymous_tls).result = .Fail
    ∧ (∃ r : LogRecord,
        (enable_client_tls t log certificate_checker tls_config anonymous_tls).log = log ++ [r]
        ∧ r.priority = .LOG_ERR)
    ∧ (enable_client_tls t log certificate_checker tls_config anonymous_tls).log.length
        = log.length + 1
    ∧ (enable_client_tls t log certificate_checker tls_config anonymous_tls).t = t :=
  ⟨rfl, ⟨_, rfl, rfl⟩, by simp [enable_client_tls, LOG, LOG_REDEMPTION], rfl⟩

/-- C15: identity returns the sentinel 42 in every state, in particular in
every state reached from a fresh adapter by pushes, reads, sends and clears;
it is a `const` member function, a function of the state that produces no new
state. -/
theorem C15_identity_is_sentinel (t : Transport) (ops : List Op) :
    get_fd t = 42
    ∧ get_fd (run Transport.fresh ops).1 = get_fd Transport.fresh
    ∧ get_fd (run t ops).1 = get_fd t :=
  ⟨rfl, rfl, rfl⟩

/-- C17: in every state reached from a fresh adapter by pushes (of empty chunks
too), reads, sends and clears, the cursor is 0 when the queue is empty and at
most the length of the front chunk otherwise. So `s.size() - current_pos`
does not wrap, a copy of `min_len` bytes from the cursor ends inside the front
chunk, and a read from such a state never leaves the chunk. -/
theorem C17_cursor_within_front_chunk (ops : List Op) (len : Nat) :
    ((run Transport.fresh ops).1.input_buffers = [] →
        (run Transport.fresh ops).1.current_pos = 0)
    ∧ (∀ s rest, (run Transport.fresh ops).1.input_buffers = s :: rest →
        (run Transport.fresh ops).1.current_pos ≤ s.length
        ∧ ∀ remaining, (run Transport.fresh ops).1.current_pos
            + min (s.length - (run Transport.fresh ops).1.current_pos) remaining ≤ s.length)
    ∧ (do_partial_read (run Transport.fresh ops).1 len).status ≠ .undefined
    ∧ (do_partial_read (run Transport.fresh ops).1 len).status ≠ .out_of_fuel := by
  have hc := (run_stream ops Transport.fresh rfl).1
  generalize (run Transport.fresh ops).1 = t at hc
  obtain ⟨q, pos, out⟩ := t
  cases q with
  | nil =>
    refine ⟨fun _ => hc, fun s rest h => by simp at h, ?_, ?_⟩ <;> simp [read_nil]
  | cons s rest =>
    have hpos : pos ≤ s.length := hc
    obtain ⟨t1, h1, _⟩ := read_cons s rest pos out len hpos
    refine ⟨fun h => by simp at h, fun s1 rest1 h => ?_, by simp [h1], by simp [h1]⟩
    simp only [List.cons.injEq] at h
    obtain ⟨rfl, _⟩ := h
    exact ⟨hpos, fun remaining => by simp only; omega⟩

theorem C17_cursor_within_front_chunk_witness :
    (run Transport.fresh [.push [], .push (bytes "ab"), .read 1, .read 5, .read 2]).1.current_pos
      = 0 :=
  (C17_cursor_within_front_chunk [.push [], .push (bytes "ab"), .read 1, .read 5, .read 2] 0).1
    (by decide)

/-! Section: Split reads and the length of the loop -/

theorem loop_stay1 (fuel : Nat) (s : Chunk) (rest : List Chunk) (pos : Nat)
    (out : List Byte) (remaining : Nat) (data : List Byte)
    (hpos : pos ≤ s.length) (hr : remaining ≠ 0) (hlt : remaining < s.length - pos) :
    do_partial_read_loop (fuel + 1 + 1) ⟨s :: rest, pos, out⟩ remaining data
      = .done ⟨s :: rest, pos + remaining, out⟩ 0
          (data ++ (s.drop pos).take remaining) :=
  loop_stay fuel s rest pos out remaining data hpos hr hlt

theorem prepend_prepend (d x : List Byte) (e : LoopExit) :
    (e.prepend x).prepend d = e.prepend (d ++ x) := by
  cases e <;> simp [LoopExit.prepend]

/-- The bytes already in the buffer only precede what a loop run writes. -/
theorem loop_prepend : ∀ (fuel : Nat) (t : Transport) (remaining : Nat) (d : List Byte),
    do_partial_read_loop fuel t remaining d
      = (do_partial_read_loop fuel t remaining []).prepend d := by
  intro fuel
  induction fuel with
  | zero => intro t remaining d; rfl
  | succ f ih =>
    intro t remaining d
    obtain ⟨q, pos, out⟩ := t
    conv_lhs => rw [do_partial_read_loop]
    conv_rhs => rw [do_partial_read_loop]
    by_cases hr : remaining = 0
    · simp [hr, LoopExit.prepend]
    · cases q with
      | nil => simp [hr, LoopExit.prepend]
      | cons s rest =>
        simp only [hr, if_false, List.nil_append]
        split_ifs with h1 h2 h3
        · rfl
        · rfl
        · rw [ih _ _ (d ++ _), ih _ _ (List.take _ _), prepend_prepend]
        · rw [ih _ _ (d ++ _), ih _ _ (List.take _ _), prepend_prepend]

/-- A request that ends inside the front chunk can be cut at any earlier
point: the loop on `a + b` bytes is the loop on `b` bytes after the cursor has
moved by `a`. -/
theorem loop_split_stay (out : List Byte) (s : Chunk) (rest : List Chunk) (pos a b : Nat)
    (data : List Byte) (hpos : pos ≤ s.length) (hb : 0 < b) (hlt : a < s.length - pos) :
    do_partial_read_loop (rest.length + 1 + 1) ⟨s :: rest, pos, out⟩ (a + b) data
      = do_partial_read_loop (rest.length + 1 + 1) ⟨s :: rest, pos + a, out⟩ b
          (data ++ (s.drop pos).take a) := by
  have e1 : List.drop a (List.drop pos s) = List.drop (pos + a) s := List.drop_drop a pos s
  have e2 : data ++ List.take a (List.drop pos s) ++ List.drop (pos + a) s
      = data ++ List.drop pos s := by
    rw [← e1, List.append_assoc, List.take_append_drop]
  by_cases h2 : a + b < s.length - pos
  · rw [loop_stay1 _ s rest pos out (a + b) data hpos (by omega) h2,
      loop_stay1 _ s rest (pos + a) out b _ (by omega) (by omega) (by omega),
      List.take_add, e1, Nat.add_assoc, List.append_assoc]
  · have e3 : a + b - (s.length - pos) = b - (s.length - (pos + a)) := by omega
    cases rest with
    | nil =>
      rw [loop_last _ s pos out (a + b) data hpos (by omega) (by omega),
        loop_last _ s (pos + a) out b _ (by omega) (by omega) (by omega), e2, e3]
    | cons c rest1 =>
      rw [loop_pop _ s c rest1 pos out (a + b) data hpos (by omega) (by omega),
        loop_pop _ s c rest1 (pos + a) out b _ (by omega) (by omega) (by omega), e2, e3]

/-- Split reads at the level of the loop: with `a + b` bytes available and
`b > 0`, the loop on `a` bytes ends with nothing left to copy, and the loop on
`a + b` bytes is the loop on `b` bytes started where the first one ended. -/
theorem loop_split (out : List Byte) : ∀ (rest : List Chunk) (s : Chunk) (pos a b : Nat)
    (data : List Byte),
    pos ≤ s.length → 0 < b → a + b ≤ available ⟨s :: rest, pos, out⟩ →
    ∃ t1 d1,
      do_partial_read_loop (rest.length + 1 + 1) ⟨s :: rest, pos, out⟩ a data = .done t1 0 d1
      ∧ do_partial_read_loop (rest.length + 1 + 1) ⟨s :: rest, pos, out⟩ (a + b) data
          = do_partial_read_loop (t1.input_buffers.length + 1) t1 b d1
      ∧ cursor_ok t1 ∧ b ≤ available t1 ∧ t1.output_buffer = out := by
  intro rest
  induction rest with
  | nil =>
    intro s pos a b data hpos hb hab
    by_cases ha : a = 0
    · subst ha
      exact ⟨⟨[s], pos, out⟩, data, loop_zero _ _ _, by rw [Nat.zero_add]; rfl, hpos,
        by omega, rfl⟩
    · have hav : available ⟨[s], pos, out⟩ = s.length - pos := by simp [available_cons]
      have hlt : a < s.length - pos := by omega
      refine ⟨⟨[s], pos + a, out⟩, data ++ (s.drop pos).take a,
        loop_stay1 _ s [] pos out a data hpos ha hlt,
        loop_split_stay out s [] pos a b data hpos hb hlt, ?_, ?_, rfl⟩
      · show pos + a ≤ s.length
        omega
      · simp only [available_cons, List.map_nil, List.sum_nil] at hab ⊢
        omega
  | cons c rest1 ih =>
    intro s pos a b data hpos hb hab
    have hav : available ⟨s :: c :: rest1, pos, out⟩
        = (s.length - pos) + available ⟨c :: rest1, 0, out⟩ := by
      simp [available_cons]
    by_cases ha : a = 0
    · subst ha
      exact ⟨⟨s :: c :: rest1, pos, out⟩, data, loop_zero _ _ _, by rw [Nat.zero_add]; rfl,
        hpos, by omega, rfl⟩
    · by_cases hle : s.length - pos ≤ a
      · obtain ⟨t1, d1, h1, h2, h3, h4, h5⟩ :=
          ih c 0 (a - (s.length - pos)) b (data ++ s.drop pos) (Nat.zero_le _) hb (by omega)
        refine ⟨t1, d1, ?_, ?_, h3, h4, h5⟩
        · show do_partial_read_loop (rest1.length + 1 + 1 + 1) _ _ _ = _
          rw [loop_pop _ s c rest1 pos out a data hpos ha hle]
          exact h1
        · show do_partial_read_loop (rest1.length + 1 + 1 + 1) _ _ _ = _
          rw [loop_pop _ s c rest1 pos out (a + b) data hpos (by omega) (by omega)]
          have e : a + b - (s.length - pos) = a - (s.length - pos) + b := by omega
          rw [e]
          exact h2
      · have hlt : a < s.length - pos := by omega
        refine ⟨⟨s :: c :: rest1, pos + a, out⟩, data ++ (s.drop pos).take a,
          loop_stay1 _ s (c :: rest1) pos out a data hpos ha hlt,
          loop_split_stay out s (c :: rest1) pos a b data hpos hb hlt, ?_, ?_, rfl⟩
        · show pos + a ≤ s.length
          omega
        · simp only [available_cons] at hab ⊢
          omega

/-- Split reads compose, from any state with the cursor in its range. -/
theorem read_split (t : Transport) (a b : Nat) (hc : cursor_ok t) (hb : 0 < b)
    (hab : a + b ≤ available t) :
    (do_partial_read t a).status = .returned a
    ∧ (do_partial_read (do_partial_read t a).t b).status = .returned b
    ∧ (do_partial_read t (a + b)).status = .returned (a + b)
    ∧ (do_partial_read t a).data ++ (do_partial_read (do_partial_read t a).t b).data
        = (do_partial_read t (a + b)).data
    ∧ (do_partial_read (do_partial_read t a).t b).t = (do_partial_read t (a + b)).t := by
  obtain ⟨q, pos, out⟩ := t
  cases q with
  | nil =>
    have : available ⟨[], pos, out⟩ = 0 := rfl
    omega
  | cons s rest =>
    obtain ⟨t1, d1, h1, h2, h3, h4, _⟩ := loop_split out rest s pos a b [] hc hb hab
    obtain ⟨q1, pos1, out1⟩ := t1
    cases q1 with
    | nil =>
      have : available ⟨[], pos1, out1⟩ = 0 := rfl
      omega
    | cons s1 rest1 =>
      obtain ⟨t2, g1, _⟩ :=
        loop_spec out1 (rest1.length + 1 + 1) s1 rest1 pos1 b [] h3 (Nat.lt_succ_self _)
      have hr2 : b - available ⟨s1 :: rest1, pos1, out1⟩ = 0 := by omega
      rw [hr2] at g1
      simp only [List.length_cons] at h2
      have g2 : do_partial_read_loop (rest1.length + 1 + 1) ⟨s1 :: rest1, pos1, out1⟩ b d1
          = .done t2 0 (d1 ++ (unread ⟨s1 :: rest1, pos1, out1⟩).take b) := by
        rw [loop_prepend, g1]
        simp [LoopExit.prepend]
      have e_a : do_partial_read ⟨s :: rest, pos, out⟩ a
          = ⟨⟨s1 :: rest1, pos1, out1⟩, d1, .returned a⟩ := by
        simp only [do_partial_read, do_partial_read_fuel, List.isEmpty_cons,
          List.length_cons, Bool.false_eq_true, if_false, h1, Nat.sub_zero]
      have e_ab : do_partial_read ⟨s :: rest, pos, out⟩ (a + b)
          = ⟨t2, d1 ++ (unread ⟨s1 :: rest1, pos1, out1⟩).take b, .returned (a + b)⟩ := by
        simp only [do_partial_read, do_partial_read_fuel, List.isEmpty_cons,
          List.length_cons, Bool.false_eq_true, if_false, h2, g2, Nat.sub_zero]
      have e_b : do_partial_read ⟨s1 :: rest1, pos1, out1⟩ b
          = ⟨t2, (unread ⟨s1 :: rest1, pos1, out1⟩).take b, .returned b⟩ := by
        simp only [do_partial_read, do_partial_read_fuel, List.isEmpty_cons,
          List.length_cons, Bool.false_eq_true, if_false, g1, List.nil_append, Nat.sub_zero]
      rw [e_a, e_ab]
      simp only [e_b, and_self]

/-- C16: split reads compose. In every state reached from a fresh adapter, for
`a ≥ 0` and `b > 0` with `a + b` at most the available byte count, the read of
`a` bytes and then the read of `b` bytes both return, their bytes
concatenated are the bytes of one read of `a + b` bytes from the same state,
and both paths end in the same adapter state. -/
theorem C16_split_reads_compose (ops : List Op) (a b : Nat) (hb : 0 < b)
    (hab : a + b ≤ available (run Transport.fresh ops).1) :
    (do_partial_read (run Transport.fresh ops).1 a).status = .returned a
    ∧ (do_partial_read (do_partial_read (run Transport.fresh ops).1 a).t b).status
        = .returned b
    ∧ (do_partial_read (run Transport.fresh ops).1 (a + b)).status = .returned (a + b)
    ∧ (do_partial_read (run Transport.fresh ops).1 a).data
        ++ (do_partial_read (do_partial_read (run Transport.fresh ops).1 a).t b).data
        = (do_partial_read (run Transport.fresh ops).1 (a + b)).data
    ∧ (do_partial_read (do_partial_read (run Transport.fresh ops).1 a).t b).t
        = (do_partial_read (run Transport.fresh ops).1 (a + b)).t :=
  read_split _ a b (run_stream ops Transport.fresh rfl).1 hb hab

theorem C16_split_reads_compose_witness :
    0 < 3
    ∧ 2 + 3 ≤ available (run Transport.fresh
        [.push (bytes "12"), .push (bytes ""), .push (bytes "3456"), .read 1]).1
    ∧ (do_partial_read (do_partial_read (run Transport.fresh
        [.push (bytes "12"), .push (bytes ""), .push (bytes "3456"), .read 1]).1 2).t 3).t
        = (do_partial_read (run Transport.fresh
        [.push (bytes "12"), .push (bytes ""), .push (bytes "3456"), .read 1]).1 (2 + 3)).t :=
  ⟨by decide, by decide,
   (C16_split_reads_compose
     [.push (bytes "12"), .push (bytes ""), .push (bytes "3456"), .read 1] 2 3
     (by decide) (by decide)).2.2.2.2⟩

/-- C18: the copy loop terminates. On a queue `s :: rest` with the cursor at most
`len(s)`, for every requested length, the loop ends normally, with the same
result for every bound of at least (number of chunks + requested length) on
the number of tests of `remaining`; and a pass of the body with `remaining`
not 0 either lowers `remaining` or takes one chunk off the queue. Empty
chunks are allowed anywhere in the queue. -/
theorem C18_copy_loop_terminates (s : Chunk) (rest : List Chunk) (pos : Nat)
    (out : List Byte) (len : Nat) (data : List Byte) (hpos : pos ≤ s.length) :
    (∃ t1 r1 d1, ∀ fuel, (s :: rest).length + len ≤ fuel →
        do_partial_read_loop fuel ⟨s :: rest, pos, out⟩ len data = .done t1 r1 d1)
    ∧ (∀ remaining, remaining ≠ 0 →
        ∃ t1 r1 d1,
          (loop_pass ⟨s :: rest, pos, out⟩ remaining data = .next t1 r1 d1
            ∨ loop_pass ⟨s :: rest, pos, out⟩ remaining data = .stop t1 r1 d1)
          ∧ (r1 < remaining ∨ t1.input_buffers.length + 1 = (s :: rest).length)) := by
  constructor
  · by_cases hl : len = 0
    · subst hl
      refine ⟨⟨s :: rest, pos, out⟩, 0, data, fun fuel hf => ?_⟩
      obtain ⟨g, rfl⟩ : ∃ g, fuel = g + 1 := ⟨fuel - 1, by simp at hf; omega⟩
      exact loop_zero _ _ _
    · obtain ⟨t1, h1, _⟩ :=
        loop_spec out (rest.length + 1 + 1) s rest pos len data hpos (Nat.lt_succ_self _)
      refine ⟨t1, len - available ⟨s :: rest, pos, out⟩,
        data ++ (unread ⟨s :: rest, pos, out⟩).take len, fun fuel hf => ?_⟩
      obtain ⟨k, rfl⟩ : ∃ k, fuel = rest.length + 1 + 1 + k :=
        ⟨fuel - (rest.length + 1 + 1), by simp at hf; omega⟩
      rw [← h1]
      exact (do_partial_read_loop_fuel_irrelevant k ⟨s :: rest, pos, out⟩ len data).1
  · intro remaining hr
    have h1 : ¬ s.length < pos := by omega
    simp only [loop_pass, h1, if_false]
    split_ifs with h2 h3
    · exact ⟨_, _, _, Or.inr rfl, Or.inr (by simp_all)⟩
    · exact ⟨_, _, _, Or.inl rfl, Or.inr rfl⟩
    · exact ⟨_, _, _, Or.inl rfl, Or.inl (by omega)⟩

theorem C18_copy_loop_terminates_witness :
    0 ≤ (bytes "").length
    ∧ ∃ t1 r1 d1, ∀ fuel, [bytes "", bytes "", bytes "ab"].length + 5 ≤ fuel →
        do_partial_read_loop fuel ⟨[bytes "", bytes "", bytes "ab"], 0, []⟩ 5 []
          = .done t1 r1 d1 :=
  ⟨by decide, (C18_copy_loop_terminates (bytes "") [bytes "", bytes "ab"] 0 [] 5 []
    (by decide)).1⟩

end redjs

/-! Section: The hexadecimal decoder -/

set_option maxRecDepth 100000 in
theorem lor_255 : ∀ x < 256, x ||| 255 = 255 ∧ 255 ||| x = 255 := by decide

set_option maxRecDepth 100000 in
theorem shift_lor_eq : ∀ x < 16, ∀ y < 16, ((x <<< 4) ||| y) % 256 = 16 * x + y := by decide

/-- The model of `detail::hexadecimal_char_to_int` gives a hexadecimal digit a
value below 16. -/
theorem hexadecimal_char_to_int_digit (c : Nat) (h : is_hexadecimal_digit c) :
    hexadecimal_char_to_int c < 16 := by
  unfold is_hexadecimal_digit at h
  unfold hexadecimal_char_to_int
  split_ifs <;> omega

/-- The model of `detail::hexadecimal_char_to_int` gives every other character
0xff. -/
theorem hexadecimal_char_to_int_other (c : Nat) (h : ¬ is_hexadecimal_digit c) :
    hexadecimal_char_to_int c = 0xff := by
  unfold is_hexadecimal_digit at h
  unfold hexadecimal_char_to_int
  split_ifs <;> omega

/-- A converted character, as the `uint8_t` it is stored in. -/
theorem char_to_int_cases (char_to_int : Nat → Nat)
    (hdigit : ∀ c, is_hexadecimal_digit c → char_to_int c < 16)
    (hother : ∀ c, ¬ is_hexadecimal_digit c → char_to_int c = 0xff) (c : Nat) :
    (is_hexadecimal_digit c ∧ char_to_int c % 256 < 16
        ∧ char_to_int c % 256 = char_to_int c)
    ∨ (¬ is_hexadecimal_digit c ∧ char_to_int c % 256 = 255) := by
  by_cases h : is_hexadecimal_digit c
  · have := hdigit c h
    exact Or.inl ⟨h, by omega, by omega⟩
  · have := hother c h
    exact Or.inr ⟨h, by omega⟩

/-- One update of `err`: it stays below 16 as long as every converted
character is below 16, and is 0xff from the first 0xff on. -/
theorem err_step (err c1 c2 : Nat) (herr : err < 16 ∨ err = 255)
    (h1 : c1 < 16 ∨ c1 = 255) (h2 : c2 < 16 ∨ c2 = 255) :
    ((err ||| (c1 ||| c2)) % 2 ^ 32 < 16 ∨ (err ||| (c1 ||| c2)) % 2 ^ 32 = 255)
    ∧ ((err ||| (c1 ||| c2)) % 2 ^ 32 ≠ 255 ↔ err ≠ 255 ∧ c1 < 16 ∧ c2 < 16) := by
  have hz : (c1 ||| c2 < 16 ∧ c1 < 16 ∧ c2 < 16)
      ∨ (c1 ||| c2 = 255 ∧ ¬ (c1 < 16 ∧ c2 < 16)) := by
    rcases h1 with h1 | h1
    · rcases h2 with h2 | h2
      · exact Or.inl ⟨Nat.or_lt_two_pow (n := 4) h1 h2, h1, h2⟩
      · subst h2
        exact Or.inr ⟨(lor_255 c1 (by omega)).1, by omega⟩
    · subst h1
      have hc2 : c2 < 256 := by omega
      exact Or.inr ⟨(lor_255 c2 hc2).2, by omega⟩
  rcases hz with ⟨hz, h3, h4⟩ | ⟨hz, h3⟩
  · rcases herr with he | he
    · have := Nat.or_lt_two_pow (n := 4) he hz
      have e : (err ||| (c1 ||| c2)) % 2 ^ 32 = err ||| (c1 ||| c2) :=
        Nat.mod_eq_of_lt (by omega)
      rw [e]
      exact ⟨Or.inl this, by omega⟩
    · subst he
      have e : 255 ||| (c1 ||| c2) = 255 := (lor_255 _ (by omega)).2
      rw [e]
      exact ⟨Or.inr (by norm_num), by norm_num⟩
  · rw [hz]
    have e : err ||| 255 = 255 := (lor_255 err (by omega)).1
    rw [e]
    refine ⟨Or.inr (by norm_num), ?_⟩
    constructor
    · intro h
      exact absurd (by norm_num) h
    · intro h
      exact absurd ⟨h.2.1, h.2.2⟩ h3

/-- The decoding loop on an input of `2 * n` characters still to be read, the
characters `pre` being read already: it returns, `ret` tells whether `err`
was not 0xff and every character is a hexadecimal digit, one byte is written
per pair of characters, and no read leaves the input. -/
theorem hex_loop_spec (char_to_int : Nat → Nat)
    (hdigit : ∀ c, is_hexadecimal_digit c → char_to_int c < 16)
    (hother : ∀ c, ¬ is_hexadecimal_digit c → char_to_int c = 0xff) :
    ∀ (n : Nat) (pre l : List Nat) (err : Nat) (out reads : List Nat),
    l.length = 2 * n → (err < 16 ∨ err = 255) →
    ∃ ret out1 reads1,
      hexadecimal_string_to_buffer_loop char_to_int (pre ++ l) n pre.length err out reads
        = .returned ret (out ++ out1) (reads ++ reads1)
      ∧ (ret = true ↔ err ≠ 255 ∧ ∀ c ∈ l, is_hexadecimal_digit c)
      ∧ out1.length = n
      ∧ (∀ i a b, l[2 * i]? = some a → l[2 * i + 1]? = some b →
          out1[i]? = some (((char_to_int a % 256) <<< 4 ||| char_to_int b % 256) % 256))
      ∧ (∀ i ∈ reads1, i < (pre ++ l).length) := by
  intro n
  induction n with
  | zero =>
    intro pre l err out reads hl herr
    have : l = [] := List.eq_nil_of_length_eq_zero (by omega)
    subst this
    refine ⟨err != 0xff, [], [], ?_, ?_, rfl, ?_, ?_⟩
    · simp [hexadecimal_string_to_buffer_loop]
    · simp
    · intro i a b h
      simp at h
    · simp
  | succ n ih =>
    intro pre l err out reads hl herr
    obtain ⟨a, b, l1, rfl⟩ : ∃ a b l1, l = a :: b :: l1 := by
      cases l with
      | nil => simp at hl
      | cons a l =>
        cases l with
        | nil => simp at hl; omega
        | cons b l1 => exact ⟨a, b, l1, rfl⟩
    have hl1 : l1.length = 2 * n := by
      simp only [List.length_cons] at hl
      omega
    have ga : (pre ++ a :: b :: l1)[pre.length]? = some a := by
      rw [List.getElem?_append_right (Nat.le_refl _)]
      simp
    have gb : (pre ++ a :: b :: l1)[pre.length + 1]? = some b := by
      rw [List.getElem?_append_right (Nat.le_add_right _ _)]
      simp
    have e1 : pre ++ a :: b :: l1 = (pre ++ [a, b]) ++ l1 := by simp
    have e2 : pre.length + 2 = (pre ++ [a, b]).length := by simp
    have ca := char_to_int_cases char_to_int hdigit hother a
    have cb := char_to_int_cases char_to_int hdigit hother b
    have ha : char_to_int a % 256 < 16 ∨ char_to_int a % 256 = 255 := by
      rcases ca with h | h
      · exact Or.inl h.2.1
      · exact Or.inr h.2
    have hb : char_to_int b % 256 < 16 ∨ char_to_int b % 256 = 255 := by
      rcases cb with h | h
      · exact Or.inl h.2.1
      · exact Or.inr h.2
    obtain ⟨herr1, hiff⟩ := err_step err _ _ herr ha hb
    obtain ⟨ret, out1, reads1, h1, h2, h3, h4, h5⟩ :=
      ih (pre ++ [a, b]) l1 _
        (out ++ [((char_to_int a % 256) <<< 4 ||| char_to_int b % 256) % 256])
        (reads ++ [pre.length, pre.length + 1]) hl1 herr1
    refine ⟨ret, ((char_to_int a % 256) <<< 4 ||| char_to_int b % 256) % 256 :: out1,
      [pre.length, pre.length + 1] ++ reads1, ?_, ?_, ?_, ?_, ?_⟩
    · rw [hexadecimal_string_to_buffer_loop]
      simp only [ga, gb]
      rw [e2, e1, h1]
      simp
    · rw [h2, hiff]
      have da : char_to_int a % 256 < 16 ↔ is_hexadecimal_digit a := by
        rcases ca with h | h
        · exact ⟨fun _ => h.1, fun _ => h.2.1⟩
        · exact ⟨fun h6 => by omega, fun h6 => absurd h6 h.1⟩
      have db : char_to_int b % 256 < 16 ↔ is_hexadecimal_digit b := by
        rcases cb with h | h
        · exact ⟨fun _ => h.1, fun _ => h.2.1⟩
        · exact ⟨fun h6 => by omega, fun h6 => absurd h6 h.1⟩
      rw [da, db]
      simp only [List.mem_cons, forall_eq_or_imp]
      constructor
      · rintro ⟨⟨k1, k2, k3⟩, k4⟩
        exact ⟨k1, k2, k3, k4⟩
      · rintro ⟨k1, k2, k3, k4⟩
        exact ⟨⟨k1, k2, k3⟩, k4⟩
    · simp [h3]
    · intro i x y hx hy
      cases i with
      | zero =>
        simp only [Nat.mul_zero, List.getElem?_cons_zero, Option.some.injEq,
          Nat.zero_add, List.getElem?_cons_succ] at hx hy
        subst hx
        subst hy
        simp
      | succ i =>
        have e3 : 2 * (i + 1) = 2 * i + 1 + 1 := by omega
        rw [e3] at hx hy
        simp only [List.getElem?_cons_succ] at hx hy
        simp only [List.getElem?_cons_succ]
        exact h4 i x y hx hy
    · intro i hi
      rw [e1]
      rcases List.mem_append.mp hi with h | h
      · simp only [List.mem_cons, List.mem_singleton, List.not_mem_nil, or_false] at h
        simp only [List.length_append, List.length_cons, List.length_nil]
        omega
      · exact h5 i h

/-- C19 fails on the code: the input "4a" with an output view of 2 bytes
satisfies both assertions, and the second pass of the loop reads the input at
index 2, past its end (the same happens on the empty input with an output
view of 1 byte, at index 0). -/
theorem C19_reads_past_the_input :
    hexadecimal_string_to_buffer_asserts [52, 97] 2
    ∧ hexadecimal_string_to_buffer hexadecimal_char_to_int [52, 97] 2 = .undefined [0, 1, 2]
    ∧ ¬ (2 < [52, 97].length)
    ∧ hexadecimal_string_to_buffer_asserts [] 1
    ∧ hexadecimal_string_to_buffer hexadecimal_char_to_int [] 1 = .undefined [0] := by
  decide

/-- C20: if `char_to_int` gives every hexadecimal digit a value below 16 and
every other character 0xff, then on every input of even length the pointer
overload returns, and returns true exactly when every character is a
hexadecimal digit; it writes `in.size() / 2` bytes, reads no character past
the end of the input, and when it returns true the byte `i` is
`16 * value(in[2i]) + value(in[2i+1])` for every `i < in.size() / 2`. -/
theorem C20_hex_string_to_buffer (char_to_int : Nat → Nat) (input : List Nat)
    (hdigit : ∀ c, is_hexadecimal_digit c → char_to_int c < 16)
    (hother : ∀ c, ¬ is_hexadecimal_digit c → char_to_int c = 0xff)
    (heven : input.length % 2 = 0) :
    ∃ ret out reads,
      hexadecimal_string_to_buffer_ptr char_to_int input = .returned ret out reads
      ∧ (ret = true ↔ ∀ c ∈ input, is_hexadecimal_digit c)
      ∧ out.length = input.length / 2
      ∧ (ret = true → ∀ i, i < input.length / 2 →
          ∃ a b, input[2 * i]? = some a ∧ input[2 * i + 1]? = some b
            ∧ out[i]? = some (16 * char_to_int a + char_to_int b))
      ∧ (∀ i ∈ reads, i < input.length) := by
  obtain ⟨ret, out1, reads1, h1, h2, h3, h4, h5⟩ :=
    hex_loop_spec char_to_int hdigit hother (input.length / 2) [] input 0 [] []
      (by omega) (Or.inl (by norm_num))
  simp only [List.nil_append, List.length_nil] at h1 h5
  refine ⟨ret, out1, reads1, h1, ?_, h3, ?_, h5⟩
  · rw [h2]
    simp
  · intro hret i hi
    have hall : ∀ c ∈ input, is_hexadecimal_digit c := (h2.mp hret).2
    have ha : 2 * i < input.length := by omega
    have hb : 2 * i + 1 < input.length := by omega
    have ga : input[2 * i]? = some input[2 * i] := List.getElem?_eq_getElem ha
    have gb : input[2 * i + 1]? = some input[2 * i + 1] := List.getElem?_eq_getElem hb
    refine ⟨input[2 * i], input[2 * i + 1], ga, gb, ?_⟩
    rw [h4 i _ _ ga gb]
    have va := hdigit _ (hall _ (List.getElem?_mem ga))
    have vb := hdigit _ (hall _ (List.getElem?_mem gb))
    rw [Nat.mod_eq_of_lt (by omega : char_to_int input[2 * i] < 256),
      Nat.mod_eq_of_lt (by omega : char_to_int input[2 * i + 1] < 256),
      shift_lor_eq _ va _ vb]

theorem C20_hex_string_to_buffer_witness :
    [52, 97, 70, 48].length % 2 = 0
    ∧ ∃ ret out reads,
      hexadecimal_string_to_buffer_ptr hexadecimal_char_to_int [52, 97, 70, 48]
        = .returned ret out reads
      ∧ (ret = true ↔ ∀ c ∈ [52, 97, 70, 48], is_hexadecimal_digit c)
      ∧ out.length = [52, 97, 70, 48].length / 2
      ∧ (ret = true → ∀ i, i < [52, 97, 70, 48].length / 2 →
          ∃ a b, [52, 97, 70, 48][2 * i]? = some a ∧ [52, 97, 70, 48][2 * i + 1]? = some b
            ∧ out[i]? = some (16 * hexadecimal_char_to_int a + hexadecimal_char_to_int b))
      ∧ (∀ i ∈ reads, i < [52, 97, 70, 48].length) :=
  ⟨by decide,
   C20_hex_string_to_buffer hexadecimal_char_to_int [52, 97, 70, 48]
     hexadecimal_char_to_int_digit hexadecimal_char_to_int_other (by decide)⟩
